import Mathlib

/-!
Verification of the personal-finance ledger application (Flask app
in app/views.py and app/__init__.py) against its natural-language
specification.  The data model and operations below are shallow
embeddings of the Python source; parts of the repository that are not
shipped with the source tree (app/utils.py, app/notifications.py) are
modelled from the specification, as marked in their doc comments.
Monetary amounts are modelled as integers; dates as year/month/day
records with explicit Gregorian calendar arithmetic.
-/

namespace Ledger

/-! ## Calendar dates -/
/-- A Gregorian calendar date, as stored in the database (year, month
1..12, day 1..31). -/
structure Date where
  year : Nat
  month : Nat
  day : Nat
deriving DecidableEq, Repr

/-- Gregorian leap-year test (Python: calendar rules used by
datetime/dateutil). -/
def isLeap (y : Nat) : Bool :=
  y % 4 == 0 && (y % 100 != 0 || y % 400 == 0)

/-- Number of days in a month of a given year. -/
def daysInMonth (y m : Nat) : Nat :=
  if m = 2 then (if isLeap y then 29 else 28)
  else if m = 4 ∨ m = 6 ∨ m = 9 ∨ m = 11 then 30
  else 31

/-- A date actually representable by the datetime library: month in
range and day within the month. -/
def ValidDate (d : Date) : Prop :=
  1 ≤ d.month ∧ d.month ≤ 12 ∧ 1 ≤ d.day ∧ d.day ≤ daysInMonth d.year d.month

instance (d : Date) : Decidable (ValidDate d) := by
  unfold ValidDate; infer_instance

/-- Order-embedding of dates into naturals: lexicographic on
(year, month, day).  Dates compare by this key. -/
def Date.key (d : Date) : Nat :=
  d.year * 372 + (d.month - 1) * 31 + (d.day - 1)

/-- Date comparison (the order datetime objects carry). -/
def dle (d e : Date) : Prop := d.key ≤ e.key

/-- Strict date comparison. -/
def dlt (d e : Date) : Prop := d.key < e.key

instance (d e : Date) : Decidable (dle d e) := by unfold dle; infer_instance

instance (d e : Date) : Decidable (dlt d e) := by unfold dlt; infer_instance

/-- Successor day (datetime + timedelta(days=1)). -/
def nextDay (d : Date) : Date :=
  if d.day < daysInMonth d.year d.month then ⟨d.year, d.month, d.day + 1⟩
  else if d.month < 12 then ⟨d.year, d.month + 1, 1⟩
  else ⟨d.year + 1, 1, 1⟩

/-- Add n days. -/
def addDays : Nat → Date → Date
  | 0, d => d
  | n + 1, d => addDays n (nextDay d)

/-- Add one calendar month, keeping the day-of-month and clamping to
the last day of a shorter target month (dateutil relativedelta
semantics). -/
def addMonthClamp (d : Date) : Date :=
  if d.month = 12 then
    ⟨d.year + 1, 1, min d.day (daysInMonth (d.year + 1) 1)⟩
  else
    ⟨d.year, d.month + 1, min d.day (daysInMonth d.year (d.month + 1))⟩

/-- Add one calendar year, clamping Feb 29 to Feb 28 on non-leap target
years (dateutil relativedelta semantics). -/
def addYearClamp (d : Date) : Date :=
  ⟨d.year + 1, d.month, min d.day (daysInMonth (d.year + 1) d.month)⟩

/-- Recurrence frequencies (models.Frequency). -/
inductive Freq where
  | daily
  | weekly
  | monthly
  | yearly
deriving DecidableEq, Repr

/-- Modelled from the spec: the frequency advancement of a recurring
rule's next_due_date, implemented in the missing app/utils.py
(§4.2 step 1c): daily +1 day, weekly +7 days, monthly +1 calendar month
with clamp, yearly +1 calendar year with clamp. -/
def advance : Freq → Date → Date
  | .daily, d => addDays 1 d
  | .weekly, d => addDays 7 d
  | .monthly, d => addMonthClamp d
  | .yearly, d => addYearClamp d

/-! ## RecurrenceScheduler

app/utils.py (generate_recurring_occurrences) is not shipped with the
source tree; only its callers are (views.py calls it from the
before-request hook and after creating a rule, __init__.py at startup).
The per-rule catch-up loop below is modelled from the spec, §4.2. -/
/-- Boolean date comparison, for executable guards. -/
def dleb (d e : Date) : Bool := decide (d.key ≤ e.key)

/-- Signed effect of an amount: income positive, expense negative. -/
def signedAmount (isIncome : Bool) (amount : Int) : Int :=
  if isIncome then amount else -amount

/-- Modelled from the spec: a recurring rule as stored in the database
(models.Recurring): frequency, amount, direction, optional end date,
due-date pointer and active flag. -/
structure RecRule where
  freq : Freq
  isIncome : Bool
  amount : Int
  endDate : Option Date
  next : Date
  active : Bool
deriving DecidableEq, Repr

/-- Running state of one rule's catch-up loop: due-date pointer, dates
materialized so far this call, and the linked account's balance. -/
structure RunSt where
  next : Date
  made : List Date
  balance : Int
deriving DecidableEq, Repr

/-- Loop guard, spec §4.2 step 1: next_due_date <= asOf and
(end_date unset or next_due_date <= end_date). -/
def tickGuard (asOf : Date) (endD : Option Date) (next : Date) : Bool :=
  dleb next asOf && (match endD with | none => true | some e => dleb next e)

/-- Modelled from the spec: the per-rule catch-up loop of §4.2 step 1 —
while due, materialize one occurrence dated next_due_date, apply the
signed amount to the linked account, and advance the pointer.  The
fuel argument bounds the iteration count; tickRule passes enough fuel
for the loop to run to completion. -/
def tickLoop (asOf : Date) (freq : Freq) (isIncome : Bool) (amount : Int)
    (endD : Option Date) : Nat → RunSt → RunSt
  | 0, st => st
  | fuel + 1, st =>
    if tickGuard asOf endD st.next then
      tickLoop asOf freq isIncome amount endD fuel
        ⟨advance freq st.next, st.made ++ [st.next],
         st.balance + signedAmount isIncome amount⟩
    else st

/-- Modelled from the spec: one tick of the scheduler on one active
rule (§4.2): run the catch-up loop, then persist the advanced pointer
and deactivate the rule once its end_date is set and passed (step 1d).
Returns the updated rule, the materialized occurrence dates, and the
linked account's updated balance. -/
def tickRule (asOf : Date) (r : RecRule) (balance : Int) :
    RecRule × List Date × Int :=
  if r.active then
    let st := tickLoop asOf r.freq r.isIncome r.amount r.endDate
      (asOf.key + 1 - r.next.key) ⟨r.next, [], balance⟩
    let stillActive := match r.endDate with
      | none => true
      | some e => dleb st.next e
    ({r with next := st.next, active := stillActive}, st.made, st.balance)
  else (r, [], balance)

/-! Day-count arithmetic, to state what "+1 day" means independently of
the year/month/day representation. -/
/-- Days in all years before year y (proleptic Gregorian). -/
def daysBeforeYear : Nat → Nat
  | 0 => 0
  | y + 1 => daysBeforeYear y + (if isLeap y then 366 else 365)

/-- Days in the months of year y before month m. -/
def daysBeforeMonth (y m : Nat) : Nat :=
  ((List.range (m - 1)).map (fun i => daysInMonth y (i + 1))).sum

/-- Linear day number of a date. -/
def dayNumber (d : Date) : Nat :=
  daysBeforeYear d.year + daysBeforeMonth d.year d.month + (d.day - 1)

/-! ## Occurrence uniqueness under repeated / overlapping ticks (C2)

Modelled from the spec, §4.2 idempotency paragraph: materializing the
occurrence dated next_due_date and advancing the pointer happen as one
atomic unit; the pointer is the single source of truth for "already
processed".  A trace interleaving any number of tick invocations is a
sequence of such atomic units, each taken by an invocation whose asOf
is at or after the current pointer. -/
/-- Pointer-and-history state of one recurring rule. -/
structure SchedPtr where
  freq : Freq
  next : Date
  made : List Date
deriving DecidableEq, Repr

/-- Modelled from the spec: one atomic materialize-and-advance unit of
some tick(asOf) invocation (§4.2 step 1a--1c). -/
def matStep (s t : SchedPtr) : Prop :=
  ∃ asOf : Date, dle s.next asOf ∧
    t = ⟨s.freq, advance s.freq s.next, s.made ++ [s.next]⟩

/-- Scheduler invariant: the pointer is a valid date, every already
materialized occurrence is strictly before the pointer, and no
occurrence date repeats. -/
def SchedInv (s : SchedPtr) : Prop :=
  ValidDate s.next ∧ (∀ d ∈ s.made, d.key < s.next.key) ∧ s.made.Nodup

/-! ## Transaction operations and the balance invariant (views.py)

add_transaction (views.py 508-533), edit_transaction (613-652) and
delete_transaction (657-673), for a single user.  Accounts are never
deleted by these operations (delete_account only deactivates), so the
set of account row ids is a fixed parameter; balances are a map from
account id to balance. -/
/-- A transaction row: primary key, optional linked account,
type (income/expense) and amount. -/
structure Txn where
  id : Nat
  accId : Option Nat
  isIncome : Bool
  amount : Int
deriving DecidableEq, Repr

/-- Ledger state: account balances, transaction rows, next primary key. -/
structure LedgerSt where
  bal : Nat → Int
  txns : List Txn
  nextId : Nat

/-- Signed effect of a transaction: income positive, expense negative. -/
def effect (t : Txn) : Int := if t.isIncome then t.amount else -t.amount

/-- Contribution of a transaction to the balance of account aid. -/
def contribTo (aid : Nat) (t : Txn) : Int :=
  if t.accId = some aid then effect t else 0

/-- Sum of signed effects of all current transactions linked to aid. -/
def signedSum (aid : Nat) (ts : List Txn) : Int :=
  (ts.map (contribTo aid)).sum

/-- Apply a delta to the balance of an optional target account
(views.py: the balance mutation is guarded by `if acc:`). -/
def applyTo (target : Option Nat) (delta : Int) (bal : Nat → Int) : Nat → Int :=
  fun a => if target = some a then bal a + delta else bal a

/-- Account lookup as the form handlers do it: a raw form value of 0
means "no account", otherwise Account.query.get, which yields a row
only if it exists. -/
def lookupAcc (accIds : List Nat) (raw : Nat) : Option Nat :=
  if raw ≠ 0 ∧ raw ∈ accIds then some raw else none

/-- views.py add_transaction (508-533): resolve the account, apply the
signed amount to its balance, insert the transaction row. -/
def addTransaction (accIds : List Nat) (accRaw : Nat) (isIncome : Bool)
    (amount : Int) (st : LedgerSt) : LedgerSt :=
  let acc := lookupAcc accIds accRaw
  let t : Txn := ⟨st.nextId, acc, isIncome, amount⟩
  { bal := applyTo acc (effect t) st.bal,
    txns := st.txns ++ [t],
    nextId := st.nextId + 1 }

/-- Replace the (unique) transaction row with primary key tid. -/
def replaceTxn (tid : Nat) (tNew : Txn) : List Txn → List Txn
  | [] => []
  | t :: ts => if t.id = tid then tNew :: ts else t :: replaceTxn tid tNew ts

/-- Remove the (unique) transaction row with primary key tid. -/
def eraseTxn (tid : Nat) : List Txn → List Txn
  | [] => []
  | t :: ts => if t.id = tid then ts else t :: eraseTxn tid ts

/-- views.py edit_transaction (613-652): 404 when the row is missing;
otherwise reverse the old effect on the old account, update the row,
and apply the new effect on the new account. -/
def editTransaction (accIds : List Nat) (tid : Nat) (accRaw : Nat)
    (isIncome : Bool) (amount : Int) (st : LedgerSt) : LedgerSt :=
  match st.txns.find? (fun t => t.id = tid) with
  | none => st
  | some t =>
    let bal1 := applyTo t.accId (-(effect t)) st.bal
    let acc := lookupAcc accIds accRaw
    let tNew : Txn := ⟨t.id, acc, isIncome, amount⟩
    { bal := applyTo acc (effect tNew) bal1,
      txns := replaceTxn tid tNew st.txns,
      nextId := st.nextId }

/-- views.py delete_transaction (657-673): 404 when the row is missing;
otherwise reverse the effect on the linked account and delete the row. -/
def deleteTransaction (tid : Nat) (st : LedgerSt) : LedgerSt :=
  match st.txns.find? (fun t => t.id = tid) with
  | none => st
  | some t =>
    { bal := applyTo t.accId (-(effect t)) st.bal,
      txns := eraseTxn tid st.txns,
      nextId := st.nextId }

/-- One user-initiated transaction operation. -/
inductive LOp where
  | add (accRaw : Nat) (isIncome : Bool) (amount : Int)
  | edit (tid : Nat) (accRaw : Nat) (isIncome : Bool) (amount : Int)
  | del (tid : Nat)

/-- Dispatch one operation. -/
def stepOp (accIds : List Nat) (st : LedgerSt) : LOp → LedgerSt
  | .add accRaw isIncome amount => addTransaction accIds accRaw isIncome amount st
  | .edit tid accRaw isIncome amount =>
      editTransaction accIds tid accRaw isIncome amount st
  | .del tid => deleteTransaction tid st

/-- Run a sequence of operations. -/
def runOps (accIds : List Nat) (ops : List LOp) (st : LedgerSt) : LedgerSt :=
  ops.foldl (stepOp accIds) st

/-- Fresh database for one user: given initial balances, no
transactions yet. -/
def initSt (bal0 : Nat → Int) : LedgerSt := ⟨bal0, [], 0⟩

/-- The balance invariant relating balances to the signed sums of
currently stored transactions. -/
def Balanced (bal0 : Nat → Int) (st : LedgerSt) : Prop :=
  ∀ aid, st.bal aid = bal0 aid + signedSum aid st.txns

/-! ## NotificationEvaluator (spec §4.3; app/notifications.py is not
shipped with the source tree, only its caller is) -/
/-- A notification row: owner, dedup key, creation time, read flag. -/
structure Notif where
  owner : Nat
  dedupKey : String
  createdAt : Nat
  isRead : Bool
deriving DecidableEq, Repr

/-- Is there an unread notification for this owner and dedup key? -/
def hasUnread (ns : List Notif) (owner : Nat) (key : String) : Bool :=
  ns.any (fun n => n.owner == owner && n.dedupKey == key && !n.isRead)

/-- Modelled from the spec: the upsert policy of §4.3 — if an unread
notification with the same dedup_key already exists, leave it
untouched (no duplicate, no timestamp refresh); otherwise insert a
new unread one. -/
def upsertNotif (owner now : Nat) (key : String) (ns : List Notif) : List Notif :=
  if hasUnread ns owner key then ns else ns ++ [⟨owner, key, now, false⟩]

/-- Modelled from the spec: evaluate(owner) runs the fixed battery of
rule checks; each check contributes at most one candidate dedup key,
derived from the owner's financial state, and is upserted in order. -/
def evaluateNotifs (owner now : Nat) (cands : List String) (ns : List Notif) :
    List Notif :=
  cands.foldl (fun acc k => upsertNotif owner now k acc) ns

/-- Number of unread notifications for one owner and dedup key. -/
def unreadCount (ns : List Notif) (owner : Nat) (key : String) : Nat :=
  (ns.filter (fun n => n.owner == owner && n.dedupKey == key && !n.isRead)).length

/-- Dedup invariant: at most one unread notification per
(owner, dedup_key). -/
def AtMostOneUnread (ns : List Notif) : Prop :=
  ∀ owner key, unreadCount ns owner key ≤ 1

/-! ## Multi-user state and cross-user isolation (views.py) -/
/-- An account row with its owning user. -/
structure MAcct where
  id : Nat
  userId : Nat
  balance : Int
  active : Bool
deriving DecidableEq, Repr

/-- A transaction row with its owning user. -/
structure MTxn where
  id : Nat
  userId : Nat
  accId : Option Nat
  isIncome : Bool
  amount : Int
deriving DecidableEq, Repr

/-- Multi-user database state.  Recurring rules and notifications are
carried as opaque (id, owner) rows: the transaction endpoints never
touch them. -/
structure MSt where
  accounts : List MAcct
  txns : List MTxn
  rules : List (Nat × Nat)
  notifs : List (Nat × Nat)
deriving DecidableEq, Repr

/-- HTTP-level outcome of a request. -/
inductive Resp where
  | ok
  | notFound
deriving DecidableEq, Repr

/-- Signed effect of a transaction row. -/
def meffect (t : MTxn) : Int := if t.isIncome then t.amount else -t.amount

/-- Apply a delta to the balance of the account row(s) with the target
id (the ORM mutates the row object of that id). -/
def updAcc (target : Option Nat) (delta : Int) (accs : List MAcct) : List MAcct :=
  accs.map (fun a => if target = some a.id then
    ⟨a.id, a.userId, a.balance + delta, a.active⟩ else a)

/-- Transaction.query.filter_by(id=tid, user_id=uid).first() -/
def findOwnedTxn (uid tid : Nat) (ts : List MTxn) : Option MTxn :=
  ts.find? (fun t => decide (t.id = tid ∧ t.userId = uid))

/-- Remove the first row matching p. -/
def eraseFirstP (p : MTxn → Bool) : List MTxn → List MTxn
  | [] => []
  | t :: ts => if p t then ts else t :: eraseFirstP p ts

/-- Replace the first row matching p by f of it. -/
def replaceFirstP (p : MTxn → Bool) (f : MTxn → MTxn) : List MTxn → List MTxn
  | [] => []
  | t :: ts => if p t then f t :: ts else t :: replaceFirstP p f ts

/-- views.py delete_transaction (657-673), invoked by user uid:
first_or_404 scoped to uid, reverse the balance effect on the linked
account, delete the row. -/
def mDeleteTransaction (uid tid : Nat) (st : MSt) : MSt × Resp :=
  match findOwnedTxn uid tid st.txns with
  | none => (st, .notFound)
  | some t =>
    ({st with
        accounts := updAcc t.accId (-(meffect t)) st.accounts,
        txns := eraseFirstP (fun u => decide (u.id = tid ∧ u.userId = uid)) st.txns},
     .ok)

/-- Does uid own an active account with row id raw?  (The account
SelectField choices are exactly the user's active accounts, so form
validation rejects any other submitted id.) -/
def ownsActiveAcc (uid raw : Nat) (st : MSt) : Bool :=
  st.accounts.any (fun a => a.id == raw && a.userId == uid && a.active)

/-- views.py edit_transaction (583-655), invoked by user uid:
first_or_404 scoped to uid; the submitted account id must be 0 (no
account) or one of the user's active accounts, else form validation
fails and nothing is committed; otherwise reverse the old effect,
update the row, apply the new effect. -/
def mEditTransaction (uid tid accRaw : Nat) (isIncome : Bool) (amount : Int)
    (st : MSt) : MSt × Resp :=
  match findOwnedTxn uid tid st.txns with
  | none => (st, .notFound)
  | some t =>
    if accRaw ≠ 0 ∧ ownsActiveAcc uid accRaw st = false then
      (st, .ok)
    else
      let newAcc : Option Nat := if accRaw = 0 then none else some accRaw
      let tNew : MTxn := ⟨t.id, uid, newAcc, isIncome, amount⟩
      ({st with
          accounts := updAcc newAcc (meffect tNew)
            (updAcc t.accId (-(meffect t)) st.accounts),
          txns := replaceFirstP (fun u => decide (u.id = tid ∧ u.userId = uid))
            (fun _ => tNew) st.txns},
       .ok)

/-- views.py bulk_delete_transactions (778-806), invoked by user uid:
select the rows whose id is in the request list AND whose user_id is
uid, reverse each balance effect, delete each selected row. -/
def mBulkDelete (uid : Nat) (tids : List Nat) (st : MSt) : MSt × Resp :=
  let sel : MTxn → Bool := fun t => decide (t.id ∈ tids) && t.userId == uid
  let selected := st.txns.filter sel
  ({st with
      accounts := selected.foldl
        (fun accs t => updAcc t.accId (-(meffect t)) accs) st.accounts,
      txns := st.txns.filter (fun t => !(sel t))},
   .ok)

/-- Well-formedness of the multi-user database: a transaction's linked
account belongs to the transaction's owner (all creation paths enforce
this), and account row ids are unique (primary key). -/
def MWF (st : MSt) : Prop :=
  (∀ t ∈ st.txns, ∀ a ∈ st.accounts, t.accId = some a.id → a.userId = t.userId) ∧
  (st.accounts.map MAcct.id).Nodup

/-! ## bulk_edit_transactions and its None dereference (views.py 725-776) -/
/-- One iteration of the bulk-edit loop for one selected transaction
when a target account new_acc was found: the rollback of the old
balance effect is guarded by `if old_account:`, but the following
comparison `old_account.id != new_acc.id` is not — with no linked
account it dereferences None and raises AttributeError. -/
def bulkEditOne (na : MAcct) (accs : List MAcct) (t : MTxn) :
    Except String (List MAcct × MTxn) :=
  match t.accId with
  | none => .error "AttributeError: NoneType object has no attribute id"
  | some o =>
    let accs1 := if o ≠ na.id then updAcc (some o) (-(meffect t)) accs else accs
    let accs2 := if o ≠ na.id then updAcc (some na.id) (meffect t) accs1 else accs1
    .ok (accs2, ⟨t.id, t.userId, some na.id, t.isIncome, t.amount⟩)

/-- The bulk-edit loop over all transaction rows; selected rows are
those whose id is in the request list and whose user_id is uid. -/
def bulkEditLoop (na : Option MAcct) (sel : MTxn → Bool) :
    List MTxn → List MAcct → Except String (List MTxn × List MAcct)
  | [], accs => .ok ([], accs)
  | t :: ts, accs =>
    if sel t then
      match na with
      | none => do
        let (ts2, accs2) ← bulkEditLoop na sel ts accs
        .ok (t :: ts2, accs2)
      | some a => do
        let (accs1, tNew) ← bulkEditOne a accs t
        let (ts2, accs2) ← bulkEditLoop na sel ts accs1
        .ok (tNew :: ts2, accs2)
    else do
      let (ts2, accs2) ← bulkEditLoop na sel ts accs
      .ok (t :: ts2, accs2)

/-- views.py bulk_edit_transactions (account part; the category part
touches no balances), with the surrounding try/except: on any raised
exception the session is rolled back and a 500 response returned with
the state unchanged. -/
def mBulkEdit (uid : Nat) (tids : List Nat) (accRaw : Option Nat) (st : MSt) :
    MSt × Nat :=
  if tids = [] then (st, 400)
  else
    let na : Option MAcct := match accRaw with
      | none => none
      | some raw => st.accounts.find? (fun a => a.id == raw && a.userId == uid)
    match bulkEditLoop na (fun t => decide (t.id ∈ tids) && t.userId == uid)
        st.txns st.accounts with
    | .ok (ts2, accs2) => ({st with txns := ts2, accounts := accs2}, 200)
    | .error _ => (st, 500)

/-! ## Trigger boundary (views.py 53-70, __init__.py 26-30) -/
/-- Outcome of one engine pass (recurrence generation or notification
generation): normal return or a raised exception. -/
inductive EngineOutcome where
  | normal
  | raises (msg : String)
deriving DecidableEq, Repr

/-- Run one engine pass. -/
def runEngine : EngineOutcome → Except String Unit
  | .normal => .ok ()
  | .raises m => .error m

/-- The two engine calls of the before-request hook, in order:
generate_recurring_occurrences(); generate_all_notifications(). -/
def backgroundTasks (rec notif : EngineOutcome) : Except String Unit := do
  runEngine rec
  runEngine notif

/-- views.py ensure_recurring_generated (53-70): the background tasks
are wrapped in try/except pass — any exception is swallowed. -/
def ensureRecurringGenerated (rec notif : EngineOutcome) : Except String Unit :=
  match backgroundTasks rec notif with
  | .ok _ => .ok ()
  | .error _ => .ok ()

/-- A request: the hook runs first, then the view handler. -/
def handleRequest {α : Type} (rec notif : EngineOutcome)
    (handler : Except String α) : Except String α := do
  let _ ← ensureRecurringGenerated rec notif
  handler

/-- app/__init__.py create_app (26-30): the startup call of
generate_recurring_occurrences is wrapped in try/except pass. -/
def createAppStartup (rec : EngineOutcome) : Except String Unit :=
  match runEngine rec with
  | .ok _ => .ok ()
  | .error _ => .ok ()

/-! ## AchievementEvaluator (views.py achievements, 1733-1756) -/
/-- An achievement row. -/
structure Achievement where
  condType : String
  condValue : Nat
  isUnlocked : Bool
  unlockedAt : Option Nat
deriving DecidableEq, Repr

/-- views.py 1744-1751: for a locked achievement, unlock it with
unlocked_at = now when its counter meets condition_value; an unlocked
achievement is not touched. -/
def checkAchievement (totalTx daysWith now : Nat) (a : Achievement) : Achievement :=
  if a.isUnlocked then a
  else if a.condType = "transactions_count" ∧ totalTx ≥ a.condValue then
    ⟨a.condType, a.condValue, true, some now⟩
  else if a.condType = "days_streak" ∧ daysWith ≥ a.condValue then
    ⟨a.condType, a.condValue, true, some now⟩
  else a

/-- views.py 1744-1753: the loop over the user's achievements. -/
def evaluateAchievements (totalTx daysWith now : Nat)
    (achs : List Achievement) : List Achievement :=
  achs.map (checkAchievement totalTx daysWith now)

/-! ## Transfer (views.py transfer, 1632-1670) -/
/-- views.py transfer: same-account transfers are rejected, then
insufficient funds are rejected; otherwise an expense transaction on
the source and an income transaction on the destination are created
and both balances updated. -/
def transfer (fromId toId : Nat) (amount : Int) (st : LedgerSt) : LedgerSt :=
  if fromId = toId then st
  else if st.bal fromId < amount then st
  else
    { bal := fun a =>
        if a = fromId then st.bal a - amount
        else if a = toId then st.bal a + amount
        else st.bal a,
      txns := st.txns ++ [⟨st.nextId, some fromId, false, amount⟩,
                          ⟨st.nextId + 1, some toId, true, amount⟩],
      nextId := st.nextId + 2 }

/-- A small two-user database used to exercise the isolation
properties on concrete data: user 1 and user 2 each own one account
and one transaction; user 2 owns a recurring rule and a notification. -/
def demoSt : MSt :=
  ⟨[⟨1, 1, 100, true⟩, ⟨2, 2, 200, true⟩],
   [⟨10, 1, some 1, true, 50⟩, ⟨20, 2, some 2, false, 30⟩],
   [(5, 2)], [(6, 2)]⟩

/-! ## Theorems -/

/-! Basic calendar lemmas. -/
theorem key_mk (y m dd : Nat) :
    (Date.mk y m dd).key = y * 372 + (m - 1) * 31 + (dd - 1) := rfl

theorem validDate_mk (y m dd : Nat) :
    ValidDate (Date.mk y m dd) ↔
      1 ≤ m ∧ m ≤ 12 ∧ 1 ≤ dd ∧ dd ≤ daysInMonth y m := Iff.rfl

theorem daysInMonth_le (y m : Nat) : daysInMonth y m ≤ 31 := by
  unfold daysInMonth
  split
  · split <;> omega
  · split <;> omega

theorem daysInMonth_pos (y m : Nat) : 1 ≤ daysInMonth y m := by
  unfold daysInMonth
  split
  · split <;> omega
  · split <;> omega

theorem nextDay_valid (d : Date) (h : ValidDate d) : ValidDate (nextDay d) := by
  obtain ⟨h1, h2, h3, h4⟩ := h
  unfold nextDay
  split
  · rw [validDate_mk]; omega
  · split
    · rw [validDate_mk]
      have := daysInMonth_pos d.year (d.month + 1); omega
    · rw [validDate_mk]
      have := daysInMonth_pos (d.year + 1) 1; omega

theorem nextDay_key_lt (d : Date) (h : ValidDate d) : d.key < (nextDay d).key := by
  obtain ⟨h1, h2, h3, h4⟩ := h
  have h31 := daysInMonth_le d.year d.month
  unfold nextDay
  split
  · rw [key_mk]; simp only [Date.key]; omega
  · split
    · rw [key_mk]; simp only [Date.key]; omega
    · rw [key_mk]; simp only [Date.key]; omega

theorem addDays_valid (n : Nat) (d : Date) (h : ValidDate d) :
    ValidDate (addDays n d) := by
  induction n generalizing d with
  | zero => exact h
  | succ k ih => exact ih (nextDay d) (nextDay_valid d h)

theorem addDays_key_lt (n : Nat) (d : Date) (h : ValidDate d) (hn : 0 < n) :
    d.key < (addDays n d).key := by
  induction n generalizing d with
  | zero => omega
  | succ k ih =>
    by_cases hk : 0 < k
    · have h1 := nextDay_key_lt d h
      have h2 := ih (nextDay d) (nextDay_valid d h) hk
      calc d.key < (nextDay d).key := h1
        _ < (addDays k (nextDay d)).key := h2
    · have hk0 : k = 0 := by omega
      subst hk0
      exact nextDay_key_lt d h

theorem addMonthClamp_valid (d : Date) (h : ValidDate d) :
    ValidDate (addMonthClamp d) := by
  obtain ⟨h1, h2, h3, h4⟩ := h
  unfold addMonthClamp
  split
  · rw [validDate_mk]
    have := daysInMonth_pos (d.year + 1) 1; omega
  · rw [validDate_mk]
    have := daysInMonth_pos d.year (d.month + 1); omega

theorem addMonthClamp_key_lt (d : Date) (h : ValidDate d) :
    d.key < (addMonthClamp d).key := by
  obtain ⟨h1, h2, h3, h4⟩ := h
  have h31 := daysInMonth_le d.year d.month
  unfold addMonthClamp
  split
  · have hp := daysInMonth_pos (d.year + 1) 1
    rw [key_mk]; simp only [Date.key]; omega
  · have hp := daysInMonth_pos d.year (d.month + 1)
    rw [key_mk]; simp only [Date.key]; omega

theorem addYearClamp_valid (d : Date) (h : ValidDate d) :
    ValidDate (addYearClamp d) := by
  obtain ⟨h1, h2, h3, h4⟩ := h
  unfold addYearClamp
  rw [validDate_mk]
  have := daysInMonth_pos (d.year + 1) d.month
  omega

theorem addYearClamp_key_lt (d : Date) (h : ValidDate d) :
    d.key < (addYearClamp d).key := by
  obtain ⟨h1, h2, h3, h4⟩ := h
  have h31 := daysInMonth_le d.year d.month
  have hp := daysInMonth_pos (d.year + 1) d.month
  have h31b := daysInMonth_le (d.year + 1) d.month
  unfold addYearClamp
  rw [key_mk]; simp only [Date.key]; omega

theorem advance_valid (f : Freq) (d : Date) (h : ValidDate d) :
    ValidDate (advance f d) := by
  cases f with
  | daily => exact addDays_valid 1 d h
  | weekly => exact addDays_valid 7 d h
  | monthly => exact addMonthClamp_valid d h
  | yearly => exact addYearClamp_valid d h

theorem advance_key_lt (f : Freq) (d : Date) (h : ValidDate d) :
    d.key < (advance f d).key := by
  cases f with
  | daily => exact addDays_key_lt 1 d h (by omega)
  | weekly => exact addDays_key_lt 7 d h (by omega)
  | monthly => exact addMonthClamp_key_lt d h
  | yearly => exact addYearClamp_key_lt d h

/-! Loop postcondition: with enough fuel the loop only stops because
the guard is false, and the pointer stays a valid date. -/
theorem tickLoop_post (asOf : Date) (freq : Freq) (isIncome : Bool)
    (amount : Int) (endD : Option Date) :
    ∀ (fuel : Nat) (st : RunSt), ValidDate st.next →
      asOf.key + 1 - st.next.key ≤ fuel →
      ValidDate (tickLoop asOf freq isIncome amount endD fuel st).next ∧
      tickGuard asOf endD (tickLoop asOf freq isIncome amount endD fuel st).next = false := by
  intro fuel
  induction fuel with
  | zero =>
    intro st hv hf
    refine ⟨hv, ?_⟩
    simp only [tickLoop]
    have hgt : asOf.key < st.next.key := by omega
    simp only [tickGuard, dleb]
    have : decide (st.next.key ≤ asOf.key) = false := by
      simp only [decide_eq_false_iff_not]; omega
    simp [this]
  | succ f ih =>
    intro st hv hf
    by_cases hg : tickGuard asOf endD st.next = true
    · simp only [tickLoop, hg, if_true]
      have hadv : st.next.key < (advance freq st.next).key :=
        advance_key_lt freq st.next hv
      have hvr : ValidDate (advance freq st.next) := advance_valid freq st.next hv
      exact ih ⟨advance freq st.next, st.made ++ [st.next],
        st.balance + signedAmount isIncome amount⟩ hvr (by simp only []; omega)
    · simp only [tickLoop, hg, if_false]
      exact ⟨hv, by simp at hg; simp [hg]⟩

theorem tickRule_post (asOf : Date) (r : RecRule) (bal : Int)
    (hv : ValidDate r.next) :
    dlt asOf (tickRule asOf r bal).1.next ∨
      (tickRule asOf r bal).1.active = false := by
  by_cases ha : r.active = true
  · have hpost := tickLoop_post asOf r.freq r.isIncome r.amount r.endDate
      (asOf.key + 1 - r.next.key) ⟨r.next, [], bal⟩ hv (by simp only []; omega)
    simp only [tickRule, ha, if_true]
    set st := tickLoop asOf r.freq r.isIncome r.amount r.endDate
      (asOf.key + 1 - r.next.key) ⟨r.next, [], bal⟩ with hst
    obtain ⟨hv2, hguard⟩ := hpost
    cases he : r.endDate with
    | none =>
      left
      simp only [tickGuard, he, dleb, Bool.and_true] at hguard
      simp only [dlt]
      simpa using hguard
    | some e =>
      simp only [tickGuard, he, dleb, Bool.and_eq_false_iff] at hguard
      cases hguard with
      | inl h =>
        left
        simp only [dlt]
        simpa using h
      | inr h =>
        right
        simp [he, dleb, h]
  · right
    simp only [tickRule]
    simp [ha]

theorem daysBeforeMonth_succ (y m : Nat) (hm : 1 ≤ m) :
    daysBeforeMonth y (m + 1) = daysBeforeMonth y m + daysInMonth y m := by
  unfold daysBeforeMonth
  have h1 : m + 1 - 1 = (m - 1) + 1 := by omega
  rw [h1, List.range_succ, List.map_append, List.sum_append]
  have h2 : m - 1 + 1 = m := by omega
  simp [h2]

theorem daysInYear_sum (y : Nat) :
    daysBeforeMonth y 12 + daysInMonth y 12 = if isLeap y then 366 else 365 := by
  cases h : isLeap y <;>
    simp [daysBeforeMonth, daysInMonth, h, List.range_succ]

theorem dayNumber_nextDay (d : Date) (h : ValidDate d) :
    dayNumber (nextDay d) = dayNumber d + 1 := by
  obtain ⟨h1, h2, h3, h4⟩ := h
  unfold nextDay
  split
  · simp only [dayNumber]; omega
  · split
    · have hs := daysBeforeMonth_succ d.year d.month h1
      simp only [dayNumber]
      have hdm : d.day = daysInMonth d.year d.month := by omega
      omega
    · have hm12 : d.month = 12 := by omega
      have hsum := daysInYear_sum d.year
      simp only [dayNumber, daysBeforeYear, daysBeforeMonth, List.range_zero,
        List.map_nil, List.sum_nil, hm12]
      have hdm : d.day = daysInMonth d.year 12 := by rw [← hm12]; omega
      unfold daysBeforeMonth at hsum
      by_cases hl : isLeap d.year = true <;> simp [hl] at hsum ⊢ <;> omega

theorem dayNumber_addDays (n : Nat) (d : Date) (h : ValidDate d) :
    dayNumber (addDays n d) = dayNumber d + n := by
  induction n generalizing d with
  | zero => rfl
  | succ k ih =>
    have := dayNumber_nextDay d h
    have := ih (nextDay d) (nextDay_valid d h)
    simp only [addDays]
    omega

theorem matStep_inv (s t : SchedPtr) (hs : SchedInv s) (h : matStep s t) :
    SchedInv t := by
  obtain ⟨hv, hlt, hnd⟩ := hs
  obtain ⟨asOf, hle, ht⟩ := h
  subst ht
  refine ⟨advance_valid s.freq s.next hv, ?_, ?_⟩
  · intro d hd
    have hadv := advance_key_lt s.freq s.next hv
    rcases List.mem_append.mp hd with hd | hd
    · exact lt_trans (hlt d hd) hadv
    · simp only [List.mem_singleton] at hd
      subst hd; exact hadv
  · rw [List.nodup_append]
    refine ⟨hnd, List.nodup_singleton _, ?_⟩
    intro d hd hmem
    simp only [List.mem_singleton] at hmem
    subst hmem
    exact lt_irrefl _ (hlt _ hd)

theorem reach_inv (s t : SchedPtr) (h : Relation.ReflTransGen matStep s t)
    (hs : SchedInv s) : SchedInv t := by
  induction h with
  | refl => exact hs
  | tail hab hbc ih => exact matStep_inv _ _ ih hbc

theorem applyTo_eval (target : Option Nat) (delta : Int) (bal : Nat → Int)
    (aid : Nat) :
    applyTo target delta bal aid =
      bal aid + (if target = some aid then delta else 0) := by
  unfold applyTo
  split <;> simp

theorem applyTo_effect_mk (acc : Option Nat) (i : Nat) (inc : Bool) (a : Int)
    (bal : Nat → Int) (aid : Nat) :
    applyTo acc (effect ⟨i, acc, inc, a⟩) bal aid =
      bal aid + contribTo aid ⟨i, acc, inc, a⟩ := by
  rw [applyTo_eval]
  unfold contribTo
  split <;> simp

theorem applyTo_neg_effect (t : Txn) (bal : Nat → Int) (aid : Nat) :
    applyTo t.accId (-(effect t)) bal aid = bal aid - contribTo aid t := by
  rw [applyTo_eval]
  unfold contribTo
  split <;> simp [sub_eq_add_neg]

theorem signedSum_append (aid : Nat) (ts us : List Txn) :
    signedSum aid (ts ++ us) = signedSum aid ts + signedSum aid us := by
  simp [signedSum]

theorem signedSum_replace (aid tid : Nat) (tNew t : Txn) (ts : List Txn)
    (h : ts.find? (fun u => u.id = tid) = some t) :
    signedSum aid (replaceTxn tid tNew ts) =
      signedSum aid ts - contribTo aid t + contribTo aid tNew := by
  induction ts with
  | nil => simp at h
  | cons u us ih =>
    by_cases hu : u.id = tid
    · rw [List.find?_cons_of_pos _ (by simp [hu])] at h
      injection h with h
      subst h
      simp only [replaceTxn, if_pos hu, signedSum, List.map_cons, List.sum_cons]
      ring
    · rw [List.find?_cons_of_neg _ (by simp [hu])] at h
      simp only [replaceTxn, if_neg hu, signedSum, List.map_cons, List.sum_cons]
      have := ih h
      simp only [signedSum] at this
      omega

theorem signedSum_erase (aid tid : Nat) (t : Txn) (ts : List Txn)
    (h : ts.find? (fun u => u.id = tid) = some t) :
    signedSum aid (eraseTxn tid ts) = signedSum aid ts - contribTo aid t := by
  induction ts with
  | nil => simp at h
  | cons u us ih =>
    by_cases hu : u.id = tid
    · rw [List.find?_cons_of_pos _ (by simp [hu])] at h
      injection h with h
      subst h
      simp only [eraseTxn, if_pos hu, signedSum, List.map_cons, List.sum_cons]
      ring
    · rw [List.find?_cons_of_neg _ (by simp [hu])] at h
      simp only [eraseTxn, if_neg hu, signedSum, List.map_cons, List.sum_cons]
      have := ih h
      simp only [signedSum] at this
      omega

theorem stepOp_balanced (accIds : List Nat) (bal0 : Nat → Int)
    (st : LedgerSt) (op : LOp) (h : Balanced bal0 st) :
    Balanced bal0 (stepOp accIds st op) := by
  intro aid
  cases op with
  | add accRaw isIncome amount =>
    simp only [stepOp, addTransaction]
    rw [applyTo_effect_mk, signedSum_append, h aid]
    simp [signedSum]
    ring
  | edit tid accRaw isIncome amount =>
    simp only [stepOp, editTransaction]
    cases hf : st.txns.find? (fun t => t.id = tid) with
    | none => exact h aid
    | some t =>
      simp only []
      rw [applyTo_effect_mk, applyTo_neg_effect, signedSum_replace aid tid _ t st.txns hf,
        h aid]
      ring
  | del tid =>
    simp only [stepOp, deleteTransaction]
    cases hf : st.txns.find? (fun t => t.id = tid) with
    | none => exact h aid
    | some t =>
      simp only []
      rw [applyTo_neg_effect, signedSum_erase aid tid t st.txns hf, h aid]
      ring

theorem runOps_balanced (accIds : List Nat) (bal0 : Nat → Int)
    (ops : List LOp) (st : LedgerSt) (h : Balanced bal0 st) :
    Balanced bal0 (runOps accIds ops st) := by
  induction ops generalizing st with
  | nil => exact h
  | cons op ops ih =>
    exact ih (stepOp accIds st op) (stepOp_balanced accIds bal0 st op h)

/-! Notification evaluator lemmas. -/

theorem hasUnread_append (ns : List Notif) (n : Notif) (owner : Nat) (key : String) :
    hasUnread (ns ++ [n]) owner key =
      (hasUnread ns owner key || (n.owner == owner && n.dedupKey == key && !n.isRead)) := by
  simp [hasUnread]

theorem upsert_keeps_hasUnread (o2 now2 : Nat) (k2 : String) (ns : List Notif)
    (owner : Nat) (key : String) (h : hasUnread ns owner key = true) :
    hasUnread (upsertNotif o2 now2 k2 ns) owner key = true := by
  unfold upsertNotif
  split
  · exact h
  · rw [hasUnread_append, h]
    simp

theorem upsert_hasUnread (owner now : Nat) (key : String) (ns : List Notif) :
    hasUnread (upsertNotif owner now key ns) owner key = true := by
  unfold upsertNotif
  split
  · assumption
  · rw [hasUnread_append]
    simp

theorem eval_keeps_hasUnread (owner now : Nat) (cands : List String)
    (ns : List Notif) (o : Nat) (k : String) (h : hasUnread ns o k = true) :
    hasUnread (evaluateNotifs owner now cands ns) o k = true := by
  induction cands generalizing ns with
  | nil => exact h
  | cons c cs ih =>
    exact ih (upsertNotif owner now c ns) (upsert_keeps_hasUnread owner now c ns o k h)

theorem eval_hasUnread_all (owner now : Nat) (cands : List String) (ns : List Notif) :
    ∀ k ∈ cands, hasUnread (evaluateNotifs owner now cands ns) owner k = true := by
  induction cands generalizing ns with
  | nil => intro k hk; simp at hk
  | cons c cs ih =>
    intro k hk
    rcases List.mem_cons.mp hk with hk | hk
    · subst hk
      exact eval_keeps_hasUnread owner now cs (upsertNotif owner now k ns) owner k
        (upsert_hasUnread owner now k ns)
    · exact ih (upsertNotif owner now c ns) k hk

theorem eval_noop_of_all_unread (owner now : Nat) (cands : List String)
    (ns : List Notif) (h : ∀ k ∈ cands, hasUnread ns owner k = true) :
    evaluateNotifs owner now cands ns = ns := by
  induction cands with
  | nil => rfl
  | cons c cs ih =>
    have hc : upsertNotif owner now c ns = ns := by
      unfold upsertNotif
      rw [h c (List.mem_cons_self c cs)]
      simp
    show evaluateNotifs owner now cs (upsertNotif owner now c ns) = ns
    rw [hc]
    exact ih (fun k hk => h k (List.mem_cons_of_mem c hk))

theorem unreadCount_append (ns : List Notif) (n : Notif) (owner : Nat) (key : String) :
    unreadCount (ns ++ [n]) owner key =
      unreadCount ns owner key +
        (if (n.owner == owner && n.dedupKey == key && !n.isRead) = true then 1 else 0) := by
  simp only [unreadCount, List.filter_append, List.length_append]
  cases hp : (n.owner == owner && n.dedupKey == key && !n.isRead) <;>
    simp [List.filter, hp]

theorem unreadCount_zero_of_not_hasUnread (ns : List Notif) (owner : Nat)
    (key : String) (h : hasUnread ns owner key = false) :
    unreadCount ns owner key = 0 := by
  unfold unreadCount
  rw [List.length_eq_zero, List.filter_eq_nil_iff]
  intro n hn
  unfold hasUnread at h
  rw [List.any_eq_false] at h
  exact fun hc => absurd hc (by simpa using h n hn)

theorem upsert_atMostOne (owner now : Nat) (key : String) (ns : List Notif)
    (h : AtMostOneUnread ns) : AtMostOneUnread (upsertNotif owner now key ns) := by
  unfold upsertNotif
  split
  · exact h
  case isFalse habs =>
    intro o k
    rw [unreadCount_append]
    split
    case isTrue hp =>
      simp only [Bool.and_eq_true, beq_iff_eq, Bool.not_eq_true] at hp
      obtain ⟨⟨ho, hk⟩, _⟩ := hp
      subst ho; subst hk
      have h0 : unreadCount ns owner key = 0 :=
        unreadCount_zero_of_not_hasUnread ns owner key (by
          rw [Bool.eq_false_iff]; exact habs)
      omega
    case isFalse =>
      have := h o k
      omega

theorem eval_atMostOne (owner now : Nat) (cands : List String) (ns : List Notif)
    (h : AtMostOneUnread ns) :
    AtMostOneUnread (evaluateNotifs owner now cands ns) := by
  induction cands generalizing ns with
  | nil => exact h
  | cons c cs ih =>
    exact ih (upsertNotif owner now c ns) (upsert_atMostOne owner now c ns h)

theorem eval_append_only (owner now : Nat) (cands : List String) (ns : List Notif) :
    ∃ extra, evaluateNotifs owner now cands ns = ns ++ extra := by
  induction cands generalizing ns with
  | nil => exact ⟨[], by simp [evaluateNotifs]⟩
  | cons c cs ih =>
    show ∃ extra, evaluateNotifs owner now cs (upsertNotif owner now c ns) = ns ++ extra
    unfold upsertNotif
    split
    · exact ih ns
    · obtain ⟨extra, hx⟩ := ih (ns ++ [⟨owner, c, now, false⟩])
      exact ⟨⟨owner, c, now, false⟩ :: extra, by rw [hx]; simp⟩

/-! Achievement evaluator lemmas. -/

theorem checkAchievement_unlocked_fix (totalTx daysWith now : Nat)
    (a : Achievement) (h : a.isUnlocked = true) :
    checkAchievement totalTx daysWith now a = a := by
  unfold checkAchievement
  rw [h]
  simp

theorem checkAchievement_idem (totalTx daysWith now1 now2 : Nat) (a : Achievement) :
    checkAchievement totalTx daysWith now2 (checkAchievement totalTx daysWith now1 a) =
      checkAchievement totalTx daysWith now1 a := by
  by_cases hu : a.isUnlocked = true
  · rw [checkAchievement_unlocked_fix _ _ _ _ hu, checkAchievement_unlocked_fix _ _ _ _ hu]
  · unfold checkAchievement
    rw [Bool.not_eq_true] at hu
    rw [hu]
    simp only [Bool.false_eq_true, if_false]
    by_cases h1 : a.condType = "transactions_count" ∧ totalTx ≥ a.condValue
    · simp [h1]
    · rw [if_neg h1]
      by_cases h2 : a.condType = "days_streak" ∧ daysWith ≥ a.condValue
      · simp [h2, h1]
      · rw [if_neg h2, hu]
        simp only [Bool.false_eq_true, if_false]
        rw [if_neg h1, if_neg h2]

/-! Cross-user isolation lemmas. -/

theorem updAcc_mem_of_ne (target : Option Nat) (delta : Int) (accs : List MAcct)
    (a : MAcct) (ha : a ∈ accs) (hne : target ≠ some a.id) :
    a ∈ updAcc target delta accs := by
  unfold updAcc
  have hfix : (if target = some a.id then
      (⟨a.id, a.userId, a.balance + delta, a.active⟩ : MAcct) else a) = a := if_neg hne
  have hmem := List.mem_map_of_mem
    (fun a => if target = some a.id then
      (⟨a.id, a.userId, a.balance + delta, a.active⟩ : MAcct) else a) ha
  simpa [hfix] using hmem

theorem eraseFirstP_mem (p : MTxn → Bool) (ts : List MTxn) (t : MTxn)
    (ht : t ∈ ts) (hp : p t = false) : t ∈ eraseFirstP p ts := by
  induction ts with
  | nil => simp at ht
  | cons u us ih =>
    rcases List.mem_cons.mp ht with h | h
    · subst h
      unfold eraseFirstP
      rw [hp]
      simp
    · unfold eraseFirstP
      split
      · exact h
      · exact List.mem_cons_of_mem u (ih h)

theorem replaceFirstP_mem (p : MTxn → Bool) (f : MTxn → MTxn) (ts : List MTxn)
    (t : MTxn) (ht : t ∈ ts) (hp : p t = false) : t ∈ replaceFirstP p f ts := by
  induction ts with
  | nil => simp at ht
  | cons u us ih =>
    rcases List.mem_cons.mp ht with h | h
    · subst h
      unfold replaceFirstP
      rw [hp]
      simp
    · unfold replaceFirstP
      split
      · exact List.mem_cons_of_mem _ h
      · exact List.mem_cons_of_mem u (ih h)

theorem findOwnedTxn_spec (uid tid : Nat) (ts : List MTxn) (t : MTxn)
    (h : findOwnedTxn uid tid ts = some t) :
    t ∈ ts ∧ t.id = tid ∧ t.userId = uid := by
  unfold findOwnedTxn at h
  refine ⟨List.mem_of_find?_eq_some h, ?_⟩
  have := List.find?_some h
  simpa using this

theorem foldl_updAcc_mem (sel : List MTxn) (accs : List MAcct) (a : MAcct)
    (ha : a ∈ accs) (hne : ∀ t ∈ sel, t.accId ≠ some a.id) :
    a ∈ sel.foldl (fun accs t => updAcc t.accId (-(meffect t)) accs) accs := by
  induction sel generalizing accs with
  | nil => exact ha
  | cons u us ih =>
    exact ih (updAcc u.accId (-(meffect u)) accs)
      (updAcc_mem_of_ne _ _ _ a ha (hne u (List.mem_cons_self u us)))
      (fun t ht => hne t (List.mem_cons_of_mem u ht))

theorem acct_id_inj (st : MSt) (hnd : (st.accounts.map MAcct.id).Nodup)
    (a b : MAcct) (ha : a ∈ st.accounts) (hb : b ∈ st.accounts)
    (hid : a.id = b.id) : a = b :=
  List.inj_on_of_nodup_map hnd ha hb hid

/-- Rows of users other than uid survive a state change untouched:
their accounts (balances included) and transactions are still present,
and recurring rules and notifications are unchanged. -/
def PreservesOthers (uid : Nat) (st st2 : MSt) : Prop :=
  (∀ a ∈ st.accounts, a.userId ≠ uid → a ∈ st2.accounts) ∧
  (∀ t ∈ st.txns, t.userId ≠ uid → t ∈ st2.txns) ∧
  st2.rules = st.rules ∧ st2.notifs = st.notifs

theorem preservesOthers_refl (uid : Nat) (st : MSt) : PreservesOthers uid st st :=
  ⟨fun _ ha _ => ha, fun _ ht _ => ht, rfl, rfl⟩

theorem mDelete_preserves (uid tid : Nat) (st : MSt) (hwf : MWF st) :
    PreservesOthers uid st (mDeleteTransaction uid tid st).1 := by
  unfold mDeleteTransaction
  cases hf : findOwnedTxn uid tid st.txns with
  | none => exact preservesOthers_refl uid st
  | some t =>
    obtain ⟨hmem, hid, huid⟩ := findOwnedTxn_spec uid tid st.txns t hf
    refine ⟨?_, ?_, rfl, rfl⟩
    · intro a ha hau
      refine updAcc_mem_of_ne _ _ _ a ha ?_
      intro hacc
      exact hau ((hwf.1 t hmem a ha hacc).trans huid)
    · intro u hu huu
      refine eraseFirstP_mem _ _ u hu ?_
      simp only [decide_eq_false_iff_not]
      intro hc
      exact huu hc.2

theorem mEdit_preserves (uid tid accRaw : Nat) (isIncome : Bool) (amount : Int)
    (st : MSt) (hwf : MWF st) :
    PreservesOthers uid st (mEditTransaction uid tid accRaw isIncome amount st).1 := by
  unfold mEditTransaction
  cases hf : findOwnedTxn uid tid st.txns with
  | none => exact preservesOthers_refl uid st
  | some t =>
    obtain ⟨hmem, hid, huid⟩ := findOwnedTxn_spec uid tid st.txns t hf
    dsimp only
    split
    · exact preservesOthers_refl uid st
    next hval =>
      refine ⟨?_, ?_, rfl, rfl⟩
      · intro a ha hau
        refine updAcc_mem_of_ne _ _ _ a ?_ ?_
        · refine updAcc_mem_of_ne _ _ _ a ha ?_
          intro hacc
          exact hau ((hwf.1 t hmem a ha hacc).trans huid)
        · by_cases h0 : accRaw = 0
          · simp [h0]
          · simp only [if_neg h0, ne_eq, Option.some.injEq]
            intro hra
            have hown : ownsActiveAcc uid accRaw st = true := by
              rcases not_and_or.mp hval with h | h
              · exact absurd h0 (by simpa using h)
              · simpa using h
            unfold ownsActiveAcc at hown
            rw [List.any_eq_true] at hown
            obtain ⟨a0, ha0, hprop⟩ := hown
            simp only [Bool.and_eq_true, beq_iff_eq] at hprop
            have : a = a0 := acct_id_inj st hwf.2 a a0 ha ha0 (by omega)
            exact hau (this ▸ hprop.1.2)
      · intro u hu huu
        refine replaceFirstP_mem _ _ _ u hu ?_
        simp only [decide_eq_false_iff_not]
        intro hc
        exact huu hc.2

theorem mBulkDelete_preserves (uid : Nat) (tids : List Nat) (st : MSt)
    (hwf : MWF st) :
    PreservesOthers uid st (mBulkDelete uid tids st).1 := by
  unfold mBulkDelete
  refine ⟨?_, ?_, rfl, rfl⟩
  · intro a ha hau
    refine foldl_updAcc_mem _ _ a ha ?_
    intro t ht hacc
    have hsel := List.of_mem_filter ht
    have hmem := List.mem_of_mem_filter ht
    simp only [Bool.and_eq_true, beq_iff_eq] at hsel
    exact hau (((hwf.1 t hmem a ha) hacc).symm ▸ hsel.2)
  · intro u hu huu
    refine List.mem_filter.mpr ⟨hu, ?_⟩
    simp only [Bool.not_eq_true', Bool.and_eq_false_iff]
    right
    simpa using huu

theorem mDelete_404 (uid tid : Nat) (st : MSt)
    (h : ∀ t ∈ st.txns, t.id = tid → t.userId ≠ uid) :
    mDeleteTransaction uid tid st = (st, .notFound) := by
  unfold mDeleteTransaction
  have : findOwnedTxn uid tid st.txns = none := by
    unfold findOwnedTxn
    rw [List.find?_eq_none]
    intro t ht
    simp only [decide_eq_true_eq, not_and]
    exact h t ht
  rw [this]

theorem mEdit_404 (uid tid accRaw : Nat) (isIncome : Bool) (amount : Int) (st : MSt)
    (h : ∀ t ∈ st.txns, t.id = tid → t.userId ≠ uid) :
    mEditTransaction uid tid accRaw isIncome amount st = (st, .notFound) := by
  unfold mEditTransaction
  have : findOwnedTxn uid tid st.txns = none := by
    unfold findOwnedTxn
    rw [List.find?_eq_none]
    intro t ht
    simp only [decide_eq_true_eq, not_and]
    exact h t ht
  rw [this]

theorem mBulkDelete_noop (uid : Nat) (tids : List Nat) (st : MSt)
    (h : ∀ t ∈ st.txns, t.id ∈ tids → t.userId ≠ uid) :
    (mBulkDelete uid tids st).1 = st := by
  unfold mBulkDelete
  have hsel : ∀ t ∈ st.txns, (decide (t.id ∈ tids) && t.userId == uid) = false := by
    intro t ht
    by_cases hin : t.id ∈ tids
    · have := h t ht hin
      simp [this]
    · simp [hin]
  have h1 : st.txns.filter (fun t => decide (t.id ∈ tids) && t.userId == uid) = [] := by
    rw [List.filter_eq_nil_iff]
    intro t ht
    simp [hsel t ht]
  have h2 : st.txns.filter (fun t => !(decide (t.id ∈ tids) && t.userId == uid)) = st.txns := by
    rw [List.filter_eq_self]
    intro t ht
    simp [hsel t ht]
  simp only [h1, h2, List.foldl_nil]

/-! Bulk-edit error propagation. -/

theorem bulkEditLoop_error (a : MAcct) (sel : MTxn → Bool) :
    ∀ (ts : List MTxn) (accs : List MAcct),
      (∃ t ∈ ts, sel t = true ∧ t.accId = none) →
      ∃ msg, bulkEditLoop (some a) sel ts accs = .error msg := by
  intro ts
  induction ts with
  | nil =>
    intro accs h
    obtain ⟨t, ht, _⟩ := h
    simp at ht
  | cons u us ih =>
    intro accs h
    obtain ⟨t, ht, hsel, hacc⟩ := h
    unfold bulkEditLoop
    by_cases hu : sel u = true
    · rw [if_pos hu]
      cases hacc2 : u.accId with
      | none =>
        refine ⟨"AttributeError: NoneType object has no attribute id", ?_⟩
        simp [bulkEditOne, hacc2, Bind.bind, Except.bind]
      | some o =>
        have htus : t ∈ us := by
          rcases List.mem_cons.mp ht with h | h
          · exfalso
            subst h
            rw [hacc] at hacc2
            cases hacc2
          · exact h
        simp only [bulkEditOne, hacc2, Bind.bind, Except.bind]
        obtain ⟨msg, hm⟩ := ih _ ⟨t, htus, hsel, hacc⟩
        exact ⟨msg, by rw [hm]⟩
    · rw [if_neg hu]
      have htus : t ∈ us := by
        rcases List.mem_cons.mp ht with h | h
        · exfalso; subst h; exact hu hsel
        · exact h
      simp only [Bind.bind, Except.bind]
      obtain ⟨msg, hm⟩ := ih accs ⟨t, htus, hsel, hacc⟩
      exact ⟨msg, by rw [hm]⟩

/-! ## Claim theorems -/

/-- C1: for every account, after any sequence of transaction add, edit
and delete operations, the account's balance equals its initial balance
plus the sum of signed effects (income positive, expense negative) of
all currently-non-deleted transactions linked to that account:
add_transaction applies the signed amount, edit_transaction reverses
the old effect and applies the new one, delete_transaction reverses
the effect before removing the row. -/
theorem balance_invariant_all_ops (accIds : List Nat) (bal0 : Nat → Int)
    (ops : List LOp) (aid : Nat) :
    (runOps accIds ops (initSt bal0)).bal aid =
      bal0 aid + signedSum aid (runOps accIds ops (initSt bal0)).txns :=
  runOps_balanced accIds bal0 ops (initSt bal0)
    (fun a => by simp [initSt, signedSum]) aid

/-- C2: along any trace of atomic materialize-and-advance steps — the
unit in which any number of sequential or overlapping tick invocations
processes a rule, the due-date pointer being the single source of
truth for already-processed occurrences — no occurrence date is ever
materialized twice for the rule, so no (rule_id, occurrence_date) pair
repeats. -/
theorem no_duplicate_occurrences (s0 s : SchedPtr)
    (htr : Relation.ReflTransGen matStep s0 s) (h0 : s0.made = [])
    (hv : ValidDate s0.next) : s.made.Nodup :=
  (reach_inv s0 s htr
    ⟨hv, by rw [h0]; intro d hd; simp at hd, by rw [h0]; exact List.nodup_nil⟩).2.2

/-- Witness for C2: a concrete two-step trace of a daily rule
materializes 2024-01-01 and 2024-01-02 with no duplicate. -/
theorem no_duplicate_occurrences_witness :
    ([⟨2024, 1, 1⟩, ⟨2024, 1, 2⟩] : List Date).Nodup := by
  have h1 : matStep ⟨.daily, ⟨2024, 1, 1⟩, []⟩ ⟨.daily, ⟨2024, 1, 2⟩, [⟨2024, 1, 1⟩]⟩ :=
    ⟨⟨2024, 1, 1⟩, by decide, by decide⟩
  have h2 : matStep ⟨.daily, ⟨2024, 1, 2⟩, [⟨2024, 1, 1⟩]⟩
      ⟨.daily, ⟨2024, 1, 3⟩, [⟨2024, 1, 1⟩, ⟨2024, 1, 2⟩]⟩ :=
    ⟨⟨2024, 1, 2⟩, by decide, by decide⟩
  exact no_duplicate_occurrences ⟨.daily, ⟨2024, 1, 1⟩, []⟩
    ⟨.daily, ⟨2024, 1, 3⟩, [⟨2024, 1, 1⟩, ⟨2024, 1, 2⟩]⟩
    (Relation.ReflTransGen.tail
      (Relation.ReflTransGen.tail Relation.ReflTransGen.refl h1) h2)
    rfl (by decide)

/-- C3: after one tick(now) on an active rule that is due, the rule
satisfies next_due_date > now or active = false; and the spec scenario:
a monthly expense rule of 1000 from 2024-01-01, not run for 3 months,
on an account with balance 5000, gets 4 transactions (Jan-Apr) from a
single tick at 2024-04-01, leaving balance 1000 and next_due_date
2024-05-01 — all missed occurrences are backfilled in the same call. -/
theorem tick_advances_past_now :
    (∀ (asOf : Date) (r : RecRule) (bal : Int), ValidDate r.next →
      r.active = true → dle r.next asOf →
      dlt asOf (tickRule asOf r bal).1.next ∨
        (tickRule asOf r bal).1.active = false) ∧
    tickRule ⟨2024, 4, 1⟩ ⟨.monthly, false, 1000, none, ⟨2024, 1, 1⟩, true⟩ 5000 =
      (⟨.monthly, false, 1000, none, ⟨2024, 5, 1⟩, true⟩,
       [⟨2024, 1, 1⟩, ⟨2024, 2, 1⟩, ⟨2024, 3, 1⟩, ⟨2024, 4, 1⟩], 1000) :=
  ⟨fun asOf r bal hv _ _ => tickRule_post asOf r bal hv, by decide⟩

/-- Witness for C3: at the spec scenario's input the tick leaves the
due-date pointer past now (2024-05-01 > 2024-04-01). -/
theorem tick_advances_past_now_witness :
    dlt ⟨2024, 4, 1⟩
      ((tickRule ⟨2024, 4, 1⟩ ⟨.monthly, false, 1000, none, ⟨2024, 1, 1⟩, true⟩
        5000).1.next) ∨
    (tickRule ⟨2024, 4, 1⟩ ⟨.monthly, false, 1000, none, ⟨2024, 1, 1⟩, true⟩
        5000).1.active = false :=
  tick_advances_past_now.1 ⟨2024, 4, 1⟩
    ⟨.monthly, false, 1000, none, ⟨2024, 1, 1⟩, true⟩ 5000
    (by decide) rfl (by decide)

/-- C4, counterexample: under the per-step monthly advancement the spec
defines (+1 calendar month applied to the current due date, day
preserved, clamped to a shorter target month — dateutil relativedelta
semantics), a monthly rule starting 2024-01-31 materializes 2024-03-29
after 2024-02-29, not 2024-03-31 as the claim states; 2024-03-31 never
occurs at all, because the advancement is a function of the current
(already clamped) date only. -/
theorem monthly_sequence_counterexample :
    (tickRule ⟨2024, 4, 30⟩ ⟨.monthly, false, 1000, none, ⟨2024, 1, 31⟩, true⟩ 0).2.1 =
      [⟨2024, 1, 31⟩, ⟨2024, 2, 29⟩, ⟨2024, 3, 29⟩, ⟨2024, 4, 29⟩] ∧
    (⟨2024, 3, 31⟩ : Date) ∉
      (tickRule ⟨2024, 4, 30⟩ ⟨.monthly, false, 1000, none, ⟨2024, 1, 31⟩, true⟩ 0).2.1 ∧
    advance .monthly ⟨2024, 2, 29⟩ = ⟨2024, 3, 29⟩ := by decide

/-- C4 (amended): daily advancement adds one day and weekly seven (in
linear day-number terms); monthly moves to the next calendar month
keeping the day-of-month but clamping it to the length of the target
month; yearly moves to the next year with the same clamp, so Feb 29
becomes Feb 28 of a non-leap year; and a monthly rule starting
2024-01-31 produces occurrences 2024-02-29, 2024-03-29, 2024-04-29,
in that order (the clamped day does not spring back to 31). -/
theorem frequency_advancement_rules (d : Date) (h : ValidDate d) :
    dayNumber (advance .daily d) = dayNumber d + 1 ∧
    dayNumber (advance .weekly d) = dayNumber d + 7 ∧
    (advance .monthly d).year = (if d.month = 12 then d.year + 1 else d.year) ∧
    (advance .monthly d).month = (if d.month = 12 then 1 else d.month + 1) ∧
    (advance .monthly d).day =
      min d.day (daysInMonth (advance .monthly d).year (advance .monthly d).month) ∧
    (advance .yearly d).year = d.year + 1 ∧
    (advance .yearly d).month = d.month ∧
    (advance .yearly d).day = min d.day (daysInMonth (d.year + 1) d.month) ∧
    (∀ y : Nat, isLeap (y + 1) = false →
      advance .yearly ⟨y, 2, 29⟩ = ⟨y + 1, 2, 28⟩) ∧
    (tickRule ⟨2024, 4, 30⟩ ⟨.monthly, false, 1000, none, ⟨2024, 1, 31⟩, true⟩ 0).2.1 =
      [⟨2024, 1, 31⟩, ⟨2024, 2, 29⟩, ⟨2024, 3, 29⟩, ⟨2024, 4, 29⟩] := by
  refine ⟨dayNumber_addDays 1 d h, dayNumber_addDays 7 d h, ?_, ?_, ?_,
    rfl, rfl, rfl, ?_, by decide⟩
  · by_cases hm : d.month = 12 <;> simp [advance, addMonthClamp, hm]
  · by_cases hm : d.month = 12 <;> simp [advance, addMonthClamp, hm]
  · by_cases hm : d.month = 12 <;> simp [advance, addMonthClamp, hm]
  · intro y hy
    simp [advance, addYearClamp, daysInMonth, hy]

/-- Witness for C4 (amended), at the concrete date 2024-01-31. -/
theorem frequency_advancement_rules_witness :
    dayNumber (advance .daily ⟨2024, 1, 31⟩) = dayNumber ⟨2024, 1, 31⟩ + 1 ∧
    dayNumber (advance .weekly ⟨2024, 1, 31⟩) = dayNumber ⟨2024, 1, 31⟩ + 7 ∧
    (advance .monthly ⟨2024, 1, 31⟩).year =
      (if (⟨2024, 1, 31⟩ : Date).month = 12 then 2024 + 1 else 2024) ∧
    (advance .monthly ⟨2024, 1, 31⟩).month =
      (if (⟨2024, 1, 31⟩ : Date).month = 12 then 1 else 1 + 1) ∧
    (advance .monthly ⟨2024, 1, 31⟩).day =
      min 31 (daysInMonth (advance .monthly ⟨2024, 1, 31⟩).year
        (advance .monthly ⟨2024, 1, 31⟩).month) ∧
    (advance .yearly ⟨2024, 1, 31⟩).year = 2024 + 1 ∧
    (advance .yearly ⟨2024, 1, 31⟩).month = 1 ∧
    (advance .yearly ⟨2024, 1, 31⟩).day = min 31 (daysInMonth (2024 + 1) 1) ∧
    (∀ y : Nat, isLeap (y + 1) = false →
      advance .yearly ⟨y, 2, 29⟩ = ⟨y + 1, 2, 28⟩) ∧
    (tickRule ⟨2024, 4, 30⟩ ⟨.monthly, false, 1000, none, ⟨2024, 1, 31⟩, true⟩ 0).2.1 =
      [⟨2024, 1, 31⟩, ⟨2024, 2, 29⟩, ⟨2024, 3, 29⟩, ⟨2024, 4, 29⟩] :=
  frequency_advancement_rules ⟨2024, 1, 31⟩ (by decide)

/-- C5: notification evaluation is idempotent under unchanged state
(running it twice — even at a later clock — yields exactly the same
rows), it preserves at-most-one-unread-per-(owner, dedup_key), it only
ever appends rows (existing rows, timestamps included, are untouched),
and an upsert whose dedup key already has an unread notification is
the identity. -/
theorem notification_evaluation_idempotent :
    (∀ (owner now1 now2 : Nat) (cands : List String) (ns : List Notif),
      evaluateNotifs owner now2 cands (evaluateNotifs owner now1 cands ns) =
        evaluateNotifs owner now1 cands ns) ∧
    (∀ (owner now : Nat) (cands : List String) (ns : List Notif),
      AtMostOneUnread ns → AtMostOneUnread (evaluateNotifs owner now cands ns)) ∧
    (∀ (owner now : Nat) (cands : List String) (ns : List Notif),
      ∃ extra, evaluateNotifs owner now cands ns = ns ++ extra) ∧
    (∀ (owner now : Nat) (k : String) (ns : List Notif),
      hasUnread ns owner k = true → upsertNotif owner now k ns = ns) := by
  refine ⟨?_, ?_, ?_, ?_⟩
  · intro owner now1 now2 cands ns
    exact eval_noop_of_all_unread owner now2 cands _
      (eval_hasUnread_all owner now1 cands ns)
  · intro owner now cands ns h
    exact eval_atMostOne owner now cands ns h
  · intro owner now cands ns
    exact eval_append_only owner now cands ns
  · intro owner now k ns h
    unfold upsertNotif
    rw [h]
    simp

/-- Witness for C5: one overrun candidate, evaluated twice from an
empty table, yields the same single row and keeps dedup uniqueness. -/
theorem notification_evaluation_idempotent_witness :
    evaluateNotifs 1 7 ["budget_overrun:3"]
        (evaluateNotifs 1 5 ["budget_overrun:3"] []) =
      evaluateNotifs 1 5 ["budget_overrun:3"] [] ∧
    AtMostOneUnread (evaluateNotifs 1 5 ["budget_overrun:3"] []) :=
  ⟨notification_evaluation_idempotent.1 1 5 7 ["budget_overrun:3"] [],
   notification_evaluation_idempotent.2.1 1 5 ["budget_overrun:3"] []
     (fun o k => by simp [unreadCount])⟩

/-- C6: the transaction-mutating endpoints invoked by one user leave
every other user's accounts (balances included), transactions,
recurring rules and notifications unchanged, and a delete/edit request
naming a row id that only matches other users' rows gets a 404 with no
state change (a bulk delete naming only other users' ids changes
nothing). -/
theorem cross_user_isolation (uid : Nat) (st : MSt) (hwf : MWF st) :
    (∀ tid, PreservesOthers uid st (mDeleteTransaction uid tid st).1) ∧
    (∀ (tid accRaw : Nat) (isIncome : Bool) (amount : Int),
      PreservesOthers uid st (mEditTransaction uid tid accRaw isIncome amount st).1) ∧
    (∀ tids, PreservesOthers uid st (mBulkDelete uid tids st).1) ∧
    (∀ tid, (∀ t ∈ st.txns, t.id = tid → t.userId ≠ uid) →
      mDeleteTransaction uid tid st = (st, .notFound) ∧
      ∀ (accRaw : Nat) (isIncome : Bool) (amount : Int),
        mEditTransaction uid tid accRaw isIncome amount st = (st, .notFound)) ∧
    (∀ tids, (∀ t ∈ st.txns, t.id ∈ tids → t.userId ≠ uid) →
      (mBulkDelete uid tids st).1 = st) :=
  ⟨fun tid => mDelete_preserves uid tid st hwf,
   fun tid accRaw isIncome amount =>
     mEdit_preserves uid tid accRaw isIncome amount st hwf,
   fun tids => mBulkDelete_preserves uid tids st hwf,
   fun tid h => ⟨mDelete_404 uid tid st h,
     fun accRaw isIncome amount => mEdit_404 uid tid accRaw isIncome amount st h⟩,
   fun tids h => mBulkDelete_noop uid tids st h⟩

/-- Witness for C6: in the two-user demo database, user 1 deleting
their own transaction leaves user 2's rows intact, and user 1 naming
user 2's transaction id gets a 404 with the state unchanged. -/
theorem cross_user_isolation_witness :
    PreservesOthers 1 demoSt (mDeleteTransaction 1 10 demoSt).1 ∧
    mDeleteTransaction 1 20 demoSt = (demoSt, .notFound) :=
  ⟨(cross_user_isolation 1 demoSt (by constructor <;> decide)).1 10,
   ((cross_user_isolation 1 demoSt (by constructor <;> decide)).2.2.2.1 20
     (by decide)).1⟩

/-- C7: any exception raised by the recurrence-generation or
notification-generation pass is caught at the trigger boundary — the
before-request hook and the startup call both wrap the engine calls in
try/except — so the hosting request proceeds and returns exactly what
its handler returns, regardless of engine failure. -/
theorem engine_errors_swallowed :
    (∀ rec notif : EngineOutcome,
      ensureRecurringGenerated rec notif = Except.ok ()) ∧
    (∀ (α : Type) (rec notif : EngineOutcome) (handler : Except String α),
      handleRequest rec notif handler = handler) ∧
    (∀ rec : EngineOutcome, createAppStartup rec = Except.ok ()) := by
  refine ⟨?_, ?_, ?_⟩
  · intro rec notif
    cases rec <;> cases notif <;> rfl
  · intro α rec notif handler
    cases rec <;> cases notif <;> rfl
  · intro rec
    cases rec <;> rfl

/-- C8: a locked achievement whose recomputed counter (total
transaction count, or distinct days with transactions) meets
condition_value is unlocked with unlocked_at = now; an already
unlocked achievement is returned unchanged; and re-running the whole
evaluation under unchanged counters is a no-op. -/
theorem achievement_unlock_monotonic :
    (∀ (totalTx daysWith now : Nat) (a : Achievement),
      a.isUnlocked = false →
      (a.condType = "transactions_count" ∧ totalTx ≥ a.condValue) ∨
        (a.condType = "days_streak" ∧ daysWith ≥ a.condValue) →
      checkAchievement totalTx daysWith now a =
        ⟨a.condType, a.condValue, true, some now⟩) ∧
    (∀ (totalTx daysWith now : Nat) (a : Achievement),
      a.isUnlocked = true → checkAchievement totalTx daysWith now a = a) ∧
    (∀ (totalTx daysWith now1 now2 : Nat) (achs : List Achievement),
      evaluateAchievements totalTx daysWith now2
          (evaluateAchievements totalTx daysWith now1 achs) =
        evaluateAchievements totalTx daysWith now1 achs) := by
  refine ⟨?_, ?_, ?_⟩
  · intro totalTx daysWith now a hl hc
    unfold checkAchievement
    rw [hl]
    simp only [Bool.false_eq_true, if_false]
    rcases hc with ⟨h1, h2⟩ | ⟨h1, h2⟩
    · rw [if_pos ⟨h1, h2⟩]
    · have hne : ¬(a.condType = "transactions_count" ∧ totalTx ≥ a.condValue) := by
        intro hx
        rw [h1] at hx
        exact absurd hx.1 (by decide)
      rw [if_neg hne, if_pos ⟨h1, h2⟩]
  · intro totalTx daysWith now a hu
    exact checkAchievement_unlocked_fix totalTx daysWith now a hu
  · intro totalTx daysWith now1 now2 achs
    unfold evaluateAchievements
    induction achs with
    | nil => rfl
    | cons a as ih =>
      simp only [List.map_cons]
      rw [checkAchievement_idem]
      simp only [List.map_cons] at ih
      rw [List.cons.injEq]
      exact ⟨rfl, by simpa using ih⟩

/-- Witness for C8: a locked transactions_count achievement with a met
threshold unlocks at now = 99; an unlocked one is untouched. -/
theorem achievement_unlock_monotonic_witness :
    checkAchievement 10 3 99 ⟨"transactions_count", 5, false, none⟩ =
      ⟨"transactions_count", 5, true, some 99⟩ ∧
    checkAchievement 10 3 99 ⟨"days_streak", 5, true, some 1⟩ =
      ⟨"days_streak", 5, true, some 1⟩ :=
  ⟨achievement_unlock_monotonic.1 10 3 99 ⟨"transactions_count", 5, false, none⟩
     rfl (Or.inl ⟨rfl, by decide⟩),
   achievement_unlock_monotonic.2.1 10 3 99 ⟨"days_streak", 5, true, some 1⟩ rfl⟩

/-- C9: a transfer between two distinct accounts with sufficient source
balance creates exactly two transactions of amount m — an expense on
the source and an income on the destination — decreases the source
balance by m, increases the destination balance by m, and preserves
the sum of the two balances; with source = destination or insufficient
funds, nothing changes at all. -/
theorem transfer_spec :
    (∀ (st : LedgerSt) (fromId toId : Nat) (m : Int),
      fromId ≠ toId → m ≤ st.bal fromId →
      (transfer fromId toId m st).txns =
        st.txns ++ [⟨st.nextId, some fromId, false, m⟩,
                    ⟨st.nextId + 1, some toId, true, m⟩] ∧
      (transfer fromId toId m st).bal fromId = st.bal fromId - m ∧
      (transfer fromId toId m st).bal toId = st.bal toId + m ∧
      (transfer fromId toId m st).bal fromId + (transfer fromId toId m st).bal toId =
        st.bal fromId + st.bal toId) ∧
    (∀ (st : LedgerSt) (fromId toId : Nat) (m : Int),
      fromId = toId ∨ st.bal fromId < m → transfer fromId toId m st = st) := by
  constructor
  · intro st f t m hne hge
    have hnlt : ¬ st.bal f < m := not_lt.mpr hge
    unfold transfer
    rw [if_neg hne, if_neg hnlt]
    refine ⟨rfl, ?_, ?_, ?_⟩
    · simp
    · simp [Ne.symm hne]
    · simp [Ne.symm hne]
  · intro st f t m h
    unfold transfer
    by_cases hft : f = t
    · rw [if_pos hft]
    · rcases h with h | h
      · exact absurd h hft
      · rw [if_neg hft, if_pos h]

/-- Witness for C9: transferring 30 from account 1 (balance 100) to
account 2 (balance 50). -/
theorem transfer_spec_witness :
    (transfer 1 2 30 ⟨fun a => if a = 1 then 100 else 50, [], 0⟩).txns =
      (⟨fun a => if a = 1 then 100 else 50, [], 0⟩ : LedgerSt).txns ++
        [⟨0, some 1, false, 30⟩, ⟨0 + 1, some 2, true, 30⟩] ∧
    (transfer 1 2 30 ⟨fun a => if a = 1 then 100 else 50, [], 0⟩).bal 1 =
      (⟨fun a => if a = 1 then 100 else 50, [], 0⟩ : LedgerSt).bal 1 - 30 ∧
    (transfer 1 2 30 ⟨fun a => if a = 1 then 100 else 50, [], 0⟩).bal 2 =
      (⟨fun a => if a = 1 then 100 else 50, [], 0⟩ : LedgerSt).bal 2 + 30 ∧
    (transfer 1 2 30 ⟨fun a => if a = 1 then 100 else 50, [], 0⟩).bal 1 +
        (transfer 1 2 30 ⟨fun a => if a = 1 then 100 else 50, [], 0⟩).bal 2 =
      (⟨fun a => if a = 1 then 100 else 50, [], 0⟩ : LedgerSt).bal 1 +
        (⟨fun a => if a = 1 then 100 else 50, [], 0⟩ : LedgerSt).bal 2 :=
  transfer_spec.1 ⟨fun a => if a = 1 then 100 else 50, [], 0⟩ 1 2 30
    (by decide) (by norm_num)

/-- C10: in bulk_edit_transactions, when a target account id naming one
of the caller's accounts is supplied and some selected transaction of
the caller has no currently linked account, the unguarded comparison
old_account.id != new_acc.id dereferences None and raises
AttributeError; the surrounding handler rolls the session back and
returns a 500 response with the state unchanged. -/
theorem bulk_edit_none_crash (uid raw : Nat) (tids : List Nat) (st : MSt)
    (na : MAcct) (hne : tids ≠ [])
    (hfind : st.accounts.find? (fun a => a.id == raw && a.userId == uid) = some na)
    (t : MTxn) (ht : t ∈ st.txns) (hsel : t.id ∈ tids) (huid : t.userId = uid)
    (hacc : t.accId = none) :
    mBulkEdit uid tids (some raw) st = (st, 500) := by
  unfold mBulkEdit
  rw [if_neg hne]
  dsimp only
  rw [hfind]
  obtain ⟨msg, hm⟩ := bulkEditLoop_error na
    (fun u => decide (u.id ∈ tids) && u.userId == uid) st.txns st.accounts
    ⟨t, ht, by simp [hsel, huid], hacc⟩
  rw [hm]

/-- Witness for C10: user 1 bulk-edits their single unlinked
transaction towards their account 2 — the request 500s and nothing
changes. -/
theorem bulk_edit_none_crash_witness :
    mBulkEdit 1 [10] (some 2)
        ⟨[⟨2, 1, 0, true⟩], [⟨10, 1, none, true, 5⟩], [], []⟩ =
      (⟨[⟨2, 1, 0, true⟩], [⟨10, 1, none, true, 5⟩], [], []⟩, 500) :=
  bulk_edit_none_crash 1 2 [10]
    ⟨[⟨2, 1, 0, true⟩], [⟨10, 1, none, true, 5⟩], [], []⟩
    ⟨2, 1, 0, true⟩ (by decide) (by decide)
    ⟨10, 1, none, true, 5⟩ (by decide) (by decide) rfl rfl

end Ledger

